import Mathlib

/-!
Verification of the QPGA model (src/qpga/model.py): a shallow embedding of
the phase-diagonal builder, the single-qubit operation layer, the
controlled-phase (entangling) layer, the circuit composer and the
antifidelity metric, with proofs of the specified properties.

Matrices are embedded untyped, as functions of two natural indices into the
complex numbers; every operation carries its dimension explicitly, and all
statements quantify over in-range indices only.  Batched tensors are
modelled per batch row.
-/

namespace QPGA

open Finset

/-- A complex matrix with untyped natural indices; each operation carries
its dimension explicitly, and entries outside that dimension are never read
by any in-range statement. -/
abbrev Mat : Type := ℕ → ℕ → ℂ

/-- A complex state vector (one batch row). -/
abbrev Vec : Type := ℕ → ℂ

/-- The real paired encoding of a complex state (one batch row of a real
tensor of shape [2, d]): first component the real parts, second the
imaginary parts. -/
abbrev RVec : Type := (ℕ → ℝ) × (ℕ → ℝ)

/-- Kronecker product of `A` with `B`, where `B` has dimension `db`
(the minor block): entry `(i, j)` is `A (i / db) (j / db) * B (i % db) (j % db)`,
the standard `np.kron` layout. -/
def kron (db : ℕ) (A B : Mat) : Mat := fun i j => A (i / db) (j / db) * B (i % db) (j % db)

/-- The 1×1 identity matrix, the neutral starting block of a Kronecker fold. -/
def one1 : Mat := fun i j => if i = 0 ∧ j = 0 then 1 else 0

/-- Modelled from the spec: the Kronecker Composer `qpga.linalg.tensors`
(not under src/) — given an ordered list of square matrices paired with
their dimensions, returns their Kronecker product in standard left-to-right
ordering, together with its dimension (the product of the input
dimensions). -/
def tensors (l : List (Mat × ℕ)) : Mat × ℕ :=
  l.foldl (fun acc p => (kron p.2 acc.1 p.1, acc.2 * p.2)) (one1, 1)

/-- Right multiplication of a row vector by a matrix of dimension `d`
(`keras.backend.dot` of a batch row with a `d × d` matrix). -/
noncomputable def vecMul (d : ℕ) (x : Vec) (M : Mat) : Vec := fun j => ∑ i ∈ range d, x i * M i j

/-- Product of two `d × d` matrices. -/
noncomputable def matMul (d : ℕ) (A B : Mat) : Mat := fun i j => ∑ k ∈ range d, A i k * B k j

/-- Modelled from the spec: the Complex Bridge `qpga.utils.k_to_tf_complex`
(not under src/) — converts the real paired encoding `[2, d]` into a native
complex vector, pairing real and imaginary parts. -/
def k_to_tf_complex (x : RVec) : Vec := fun j => ⟨x.1 j, x.2 j⟩

/-- Modelled from the spec: the Complex Bridge `qpga.utils.tf_to_k_complex`
(not under src/) — converts a native complex vector back into the real
paired encoding; exact inverse of `k_to_tf_complex`. -/
def tf_to_k_complex (z : Vec) : RVec := (fun j => (z j).re, fun j => (z j).im)

/-- Modelled from the spec: the Gate Constants module (not under src/) —
the fixed 2×2 identity gate. -/
def IDENTITY : Mat := fun i j => if i = j then 1 else 0

/-- Modelled from the spec: the fixed beam-splitter gate (not under src/),
the two-mode coupling unitary applied per qubit via a Kronecker power; the
spec fixes only that it is a fixed coupling unitary, taken here as the
balanced coupler with entries `(√2)⁻¹` on the diagonal and `(√2)⁻¹·i` off
the diagonal. -/
noncomputable def BS_MATRIX : Mat := fun i j =>
  if i = j then ((Real.sqrt 2)⁻¹ : ℂ) else ((Real.sqrt 2)⁻¹ : ℂ) * Complex.I

/-- Modelled from the spec: the standard 4×4 controlled-phase gate constant
(not under src/), a fixed entangling unitary applying a phase on the last
basis state, taken here as `diag(1, 1, 1, -1)`. -/
def CPHASE : Mat := fun i j => if i = j then (if i = 3 then (-1 : ℂ) else 1) else 0

/-- Modelled from the spec: the modified 4×4 controlled-phase gate variant
(not under src/); the spec fixes only that it is a fixed entangling unitary
applying a phase on one basis state, taken here as `diag(1, 1, 1, i)`. -/
def CPHASE_MOD : Mat := fun i j => if i = j then (if i = 3 then Complex.I else 1) else 0

/-- The per-qubit 2×2 diagonal phase operator `diag(cos u + i sin u,
cos v + i sin v)` built by `tf.linalg.tensor_diag` from one entry of each
phase vector in `phase_shifts_to_tensor_product_space`. -/
noncomputable def phaseDiag2 (u v : ℝ) : Mat := fun i j =>
  if i = 0 ∧ j = 0 then ⟨Real.cos u, Real.sin u⟩
  else if i = 1 ∧ j = 1 then ⟨Real.cos v, Real.sin v⟩
  else 0

/-- The Phase-Diagonal Builder `phase_shifts_to_tensor_product_space`: the
Kronecker product, in qubit order `0..n-1`, of the per-qubit diagonal phase
operators built from the two phase vectors. -/
noncomputable def phase_shifts_to_tensor_product_space (n : ℕ) (u v : ℕ → ℝ) : Mat :=
  (tensors ((List.range n).map fun k => (phaseDiag2 (u k) (v k), 2))).1

/-- The four trainable phase parameter vectors owned by one
`SingleQubitOperationLayer` (`alphas`, `betas`, `thetas`, `phis`); each is
read on the first `num_qubits` indices. -/
structure SQParams where
  alphas : ℕ → ℝ
  betas : ℕ → ℝ
  thetas : ℕ → ℝ
  phis : ℕ → ℝ

/-- The all-zero phase vector (`tf.zeros_like`). -/
def zerosLike : ℕ → ℝ := fun _ => 0

/-- The layer's `input_shifts` transfer matrix, the phase diagonal built
from `(alphas, betas)`. -/
noncomputable def input_shifts (n : ℕ) (p : SQParams) : Mat :=
  phase_shifts_to_tensor_product_space n p.alphas p.betas

/-- The layer's `theta_shifts` transfer matrix, the phase diagonal built
from `(thetas, 0)`. -/
noncomputable def theta_shifts (n : ℕ) (p : SQParams) : Mat :=
  phase_shifts_to_tensor_product_space n p.thetas zerosLike

/-- The layer's `phi_shifts` transfer matrix, the phase diagonal built from
`(phis, 0)`. -/
noncomputable def phi_shifts (n : ℕ) (p : SQParams) : Mat :=
  phase_shifts_to_tensor_product_space n p.phis zerosLike

/-- The layer's fixed `bs_matrix`: the Kronecker power of `num_qubits`
copies of the beam-splitter gate. -/
noncomputable def bs_matrix (n : ℕ) : Mat :=
  (tensors (List.replicate n (BS_MATRIX, 2))).1

/-- Forward pass of `SingleQubitOperationLayer.call` on one batch row: five
successive right multiplications, by `input_shifts`, `bs_matrix`,
`theta_shifts`, `bs_matrix` and `phi_shifts`.  Under the graph execution
semantics this code targets (`For TF 1.x`), the symbolic matrices assigned
in `build` are re-evaluated from the current variable values on every run,
so the transfer matrices are derived from the layer's current parameters at
call time. -/
noncomputable def singleQubitCall (n : ℕ) (p : SQParams) (x : Vec) : Vec :=
  vecMul (2 ^ n)
    (vecMul (2 ^ n)
      (vecMul (2 ^ n)
        (vecMul (2 ^ n)
          (vecMul (2 ^ n) x (input_shifts n p))
          (bs_matrix n))
        (theta_shifts n p))
      (bs_matrix n))
    (phi_shifts n p)

/-- The controlled-phase gate selected by `use_standard_cphase`
(`CPhaseLayer.get_cphase_gate`). -/
def get_cphase_gate (use_standard_cphase : Bool) : Mat :=
  if use_standard_cphase then CPHASE else CPHASE_MOD

/-- The ordered block list assembled by `CPhaseLayer.build` (for
`num_qubits ≥ 1`, matching the source's integer arithmetic; the degenerate
Python floor division at `num_qubits = 0` is not modelled): parity 0 places
`num_qubits / 2` controlled-phase gates and a trailing identity when
`2 * (num_qubits / 2) < num_qubits`; any other parity places a leading
identity, `(num_qubits - 1) / 2` gates and a trailing identity when
`2 * ((num_qubits - 1) / 2) + 1 < num_qubits`. -/
def cphaseOps (n : ℕ) (parity : ℕ) (use_standard_cphase : Bool) : List (Mat × ℕ) :=
  if parity = 0 then
    List.replicate (n / 2) (get_cphase_gate use_standard_cphase, 4)
      ++ (if 2 * (n / 2) < n then [(IDENTITY, 2)] else [])
  else
    (IDENTITY, 2) ::
      (List.replicate ((n - 1) / 2) (get_cphase_gate use_standard_cphase, 4)
        ++ (if 2 * ((n - 1) / 2) + 1 < n then [(IDENTITY, 2)] else []))

/-- The fixed `transfer_matrix` of a `CPhaseLayer`: the Kronecker product
of its block list, computed once at build time. -/
def cphase_transfer (n : ℕ) (parity : ℕ) (use_standard_cphase : Bool) : Mat :=
  (tensors (cphaseOps n parity use_standard_cphase)).1

/-- Forward pass of `CPhaseLayer.call` on one batch row: right
multiplication by the fixed transfer matrix. -/
noncomputable def cphaseCall (n : ℕ) (parity : ℕ) (use_standard_cphase : Bool) (x : Vec) : Vec :=
  vecMul (2 ^ n) x (cphase_transfer n parity use_standard_cphase)

/-- A QPGA model instance: configuration plus the current values of the
trainable parameters of the initial single-qubit layer (`input_layer`) and
of the `depth` single-qubit layers following the entangling layers
(`layer_params i` for `i < depth`). -/
structure Model where
  num_qubits : ℕ
  depth : ℕ
  complex_inputs : Bool
  complex_outputs : Bool
  use_standard_cphase : Bool
  input_layer : SQParams
  layer_params : ℕ → SQParams

/-- A value flowing through the model: either a native complex state or a
real paired-encoded state. -/
inductive MVal : Type
  | c : Vec → MVal
  | r : RVec → MVal

/-- Shape discipline for an input value: a complex value when
`complex_inputs` is set, a real paired value otherwise (the Python code
would fail on any other combination). -/
def Shaped : Bool → MVal → Prop
  | true, MVal.c _ => True
  | false, MVal.r _ => True
  | _, _ => False

/-- The complex-state core of `QPGA.call`: the initial single-qubit layer,
then for each `i < depth` the controlled-phase layer of parity `i % 2`
followed by the corresponding single-qubit layer. -/
noncomputable def qpgaCore (n : ℕ) (use_standard_cphase : Bool) (p0 : SQParams)
    (ps : ℕ → SQParams) (depth : ℕ) (x : Vec) : Vec :=
  (List.range depth).foldl
    (fun acc i => singleQubitCall n (ps i) (cphaseCall n (i % 2) use_standard_cphase acc))
    (singleQubitCall n p0 x)

/-- Forward pass `QPGA.call` on one batch row: convert the input from the
real paired encoding unless `complex_inputs`, run the core, and convert the
output back unless `complex_outputs`.  An ill-shaped input (which would
crash the Python code) is mapped to the zero state; all theorems assume a
`Shaped` input. -/
noncomputable def Model.call (m : Model) (x : MVal) : MVal :=
  let xc : Vec :=
    match x with
    | MVal.c v => if m.complex_inputs then v else fun _ => 0
    | MVal.r v => if m.complex_inputs then (fun _ => 0) else k_to_tf_complex v
  let y := qpgaCore m.num_qubits m.use_standard_cphase m.input_layer m.layer_params m.depth xc
  if m.complex_outputs then MVal.c y else MVal.r (tf_to_k_complex y)

/-- Lift a complex-state layer to a pipeline stage; a real-encoded value
(impossible in a well-shaped run) is mapped to the zero state. -/
noncomputable def cStage (f : Vec → Vec) : MVal → MVal
  | MVal.c v => MVal.c (f v)
  | MVal.r _ => MVal.c fun _ => 0

/-- The input-conversion `Lambda` stage of the sequential view. -/
def inStage : MVal → MVal
  | MVal.r v => MVal.c (k_to_tf_complex v)
  | MVal.c _ => MVal.c fun _ => 0

/-- The output-conversion `Lambda` stage of the sequential view. -/
def outStage : MVal → MVal
  | MVal.c v => MVal.r (tf_to_k_complex v)
  | MVal.r _ => MVal.r (fun _ => 0, fun _ => 0)

/-- The flat ordered pipeline built by `QPGA.as_sequential`: the optional
input-conversion stage, the initial single-qubit layer, the zipped
(controlled-phase, single-qubit) pairs in construction order, and the
optional output-conversion stage.  The `Input` placeholder of the Keras
`Sequential` model performs no computation and is not a stage. -/
noncomputable def as_sequential (m : Model) : List (MVal → MVal) :=
  (if m.complex_inputs then [] else [inStage])
    ++ [cStage (singleQubitCall m.num_qubits m.input_layer)]
    ++ List.flatten ((List.range m.depth).map fun i =>
        [cStage (cphaseCall m.num_qubits (i % 2) m.use_standard_cphase),
         cStage (singleQubitCall m.num_qubits (m.layer_params i))])
    ++ (if m.complex_outputs then [] else [outStage])

/-- Run a flat pipeline left to right. -/
def applySeq (l : List (MVal → MVal)) (x : MVal) : MVal :=
  l.foldl (fun a f => f a) x

/-- The antifidelity metric on one batch row: both encodings are converted
to native complex form, the inner product `Σ conj(true) · pred` over the
`d` amplitudes is taken, and the result is one minus its squared
modulus. -/
noncomputable def antifidelity (d : ℕ) (state_true state_pred : RVec) : ℝ :=
  1 - (Complex.abs
    (∑ j ∈ range d,
      (starRingEnd ℂ) (k_to_tf_complex state_true j) * k_to_tf_complex state_pred j)) ^ 2

/-- Squared norm of the first `d` amplitudes of a complex state. -/
noncomputable def normSqVec (d : ℕ) (x : Vec) : ℝ :=
  ∑ j ∈ range d, Complex.normSq (x j)

/-- Squared norm of a real paired-encoded state over its first `d`
columns. -/
def normSqR (d : ℕ) (v : RVec) : ℝ :=
  ∑ j ∈ range d, ((v.1 j) ^ 2 + (v.2 j) ^ 2)

/-- Squared norm of a value of either encoding. -/
noncomputable def MVal.normSq (d : ℕ) : MVal → ℝ
  | MVal.c v => normSqVec d v
  | MVal.r v => normSqR d v

/-- The state of a `QPGA` instance as left by `QPGA.__init__`, before any
build or call: the recorded configuration, the parity of each entangling
layer in construction order, and the number of single-qubit layers
following them.  `input_dim` is `2 ** num_qubits`, a rational since Python
produces the float `2⁻ⁿ` for negative `num_qubits`. -/
structure RawQPGA where
  num_qubits : ℤ
  input_dim : ℚ
  depth : ℤ
  complex_inputs : Bool
  complex_outputs : Bool
  use_standard_cphase : Bool
  input_layer : SQParams
  cphase_parities : List ℤ
  num_single_qubit_layers : ℕ

/-- The constructor `QPGA.__init__`: it records the configuration and
builds the layer lists from `range(depth)` (empty for a negative depth).
The Python body contains no validation and no statement that can raise for
any integer arguments, so the `Option` never takes the value `none`; the
`Option` wrapper only makes the absence of a rejection path statable. -/
def QPGA_init (num_qubits depth : ℤ) (complex_inputs complex_outputs use_standard_cphase : Bool)
    (p0 : SQParams) : Option RawQPGA :=
  some
    { num_qubits := num_qubits
      input_dim := (2 : ℚ) ^ num_qubits
      depth := depth
      complex_inputs := complex_inputs
      complex_outputs := complex_outputs
      use_standard_cphase := use_standard_cphase
      input_layer := p0
      cphase_parities := (List.range depth.toNat).map fun i => Int.ofNat i % 2
      num_single_qubit_layers := depth.toNat }

/-! ### Matrix predicates -/

/-- The matrix is diagonal on its `d × d` range. -/
def DiagOn (d : ℕ) (M : Mat) : Prop := ∀ i < d, ∀ j < d, i ≠ j → M i j = 0

/-- Every diagonal entry on the `d × d` range has modulus 1. -/
def UnimodOn (d : ℕ) (M : Mat) : Prop := ∀ i < d, Complex.abs (M i i) = 1

/-- The rows of the matrix are orthonormal on the `d × d` range
(`M * Mᴴ = I`), the form of unitarity used to show that right
multiplication preserves the norm of a row vector. -/
def RowOrtho (d : ℕ) (M : Mat) : Prop :=
  ∀ i < d, ∀ k < d,
    (∑ j ∈ range d, M i j * (starRingEnd ℂ) (M k j)) = if i = k then 1 else 0

/-! ### Summation and Kronecker lemmas -/

theorem sum_range_mul_split (a b : ℕ) (f : ℕ → ℂ) :
    ∑ j ∈ range (a * b), f j = ∑ j1 ∈ range a, ∑ j2 ∈ range b, f (b * j1 + j2) := by
  induction a with
  | zero => simp
  | succ n ih =>
    rw [Nat.succ_mul, Finset.sum_range_add, ih, Finset.sum_range_succ, Nat.mul_comm n b]

theorem kron_diagOn {da db : ℕ} {A B : Mat} (hb : 0 < db)
    (hA : DiagOn da A) (hB : DiagOn db B) : DiagOn (da * db) (kron db A B) := by
  intro i hi j hj hne
  have hi1 : i / db < da := (Nat.div_lt_iff_lt_mul hb).mpr hi
  have hj1 : j / db < da := (Nat.div_lt_iff_lt_mul hb).mpr hj
  unfold kron
  by_cases h : i / db = j / db
  · have hm : i % db ≠ j % db := by
      intro h2
      apply hne
      calc i = db * (i / db) + i % db := (Nat.div_add_mod i db).symm
        _ = db * (j / db) + j % db := by rw [h, h2]
        _ = j := Nat.div_add_mod j db
    rw [hB _ (Nat.mod_lt _ hb) _ (Nat.mod_lt _ hb) hm, mul_zero]
  · rw [hA _ hi1 _ hj1 h, zero_mul]

theorem kron_unimodOn {da db : ℕ} {A B : Mat} (hb : 0 < db)
    (hA : UnimodOn da A) (hB : UnimodOn db B) : UnimodOn (da * db) (kron db A B) := by
  intro i hi
  have hi1 : i / db < da := (Nat.div_lt_iff_lt_mul hb).mpr hi
  show Complex.abs (A (i / db) (i / db) * B (i % db) (i % db)) = 1
  rw [map_mul, hA _ hi1, hB _ (Nat.mod_lt _ hb), one_mul]

theorem kron_rowOrtho {da db : ℕ} {A B : Mat} (hb : 0 < db)
    (hA : RowOrtho da A) (hB : RowOrtho db B) : RowOrtho (da * db) (kron db A B) := by
  intro i hi k hk
  have hia : i / db < da := (Nat.div_lt_iff_lt_mul hb).mpr hi
  have hka : k / db < da := (Nat.div_lt_iff_lt_mul hb).mpr hk
  have him : i % db < db := Nat.mod_lt _ hb
  have hkm : k % db < db := Nat.mod_lt _ hb
  rw [sum_range_mul_split da db]
  have hterm : ∀ j1 ∈ range da, ∀ j2 ∈ range db,
      kron db A B i (db * j1 + j2) * (starRingEnd ℂ) (kron db A B k (db * j1 + j2))
        = (A (i / db) j1 * (starRingEnd ℂ) (A (k / db) j1))
            * (B (i % db) j2 * (starRingEnd ℂ) (B (k % db) j2)) := by
    intro j1 _ j2 hj2
    have e1 : (db * j1 + j2) / db = j1 := by
      rw [Nat.mul_add_div hb, Nat.div_eq_of_lt (mem_range.mp hj2), add_zero]
    have e2 : (db * j1 + j2) % db = j2 := by
      rw [Nat.mul_add_mod, Nat.mod_eq_of_lt (mem_range.mp hj2)]
    unfold kron
    rw [e1, e2, map_mul]
    ring
  rw [Finset.sum_congr rfl fun j1 hj1 => Finset.sum_congr rfl (hterm j1 hj1)]
  rw [← Finset.sum_mul_sum, hA _ hia _ hka, hB _ him _ hkm]
  have hiff : i = k ↔ i / db = k / db ∧ i % db = k % db := by
    constructor
    · intro h; subst h; exact ⟨rfl, rfl⟩
    · rintro ⟨h1, h2⟩
      calc i = db * (i / db) + i % db := (Nat.div_add_mod i db).symm
        _ = db * (k / db) + k % db := by rw [h1, h2]
        _ = k := Nat.div_add_mod k db
  by_cases h : i = k
  · simp [h]
  · rcases not_and_or.mp (fun hc => h (hiff.mpr hc)) with h' | h' <;> simp [h, h']

/-! ### Folded Kronecker products -/

theorem tensors_concat (l : List (Mat × ℕ)) (p : Mat × ℕ) :
    tensors (l ++ [p]) = (kron p.2 (tensors l).1 p.1, (tensors l).2 * p.2) := by
  unfold tensors
  rw [List.foldl_append]
  rfl

theorem tensors_snd (l : List (Mat × ℕ)) : (tensors l).2 = (l.map Prod.snd).prod := by
  induction l using List.reverseRecOn with
  | nil => rfl
  | append_singleton l p ih => rw [tensors_concat, List.map_append, List.prod_append]; simp [ih]

theorem one1_diag : DiagOn 1 one1 := by
  intro i hi j hj hne
  interval_cases i
  interval_cases j
  exact absurd rfl hne

theorem one1_unimod : UnimodOn 1 one1 := by
  intro i hi
  interval_cases i
  simp [one1]

theorem one1_rowOrtho : RowOrtho 1 one1 := by
  intro i hi k hk
  interval_cases i
  interval_cases k
  simp [one1]

theorem tensors_pos (l : List (Mat × ℕ)) (h : ∀ p ∈ l, 0 < p.2) : 0 < (tensors l).2 := by
  induction l using List.reverseRecOn with
  | nil => exact Nat.one_pos
  | append_singleton l p ih =>
    rw [tensors_concat]
    exact Nat.mul_pos (ih fun q hq => h q (List.mem_append_left _ hq))
      (h p (List.mem_append_right _ (List.mem_singleton_self p)))

theorem tensors_diag_unimod (l : List (Mat × ℕ))
    (h : ∀ p ∈ l, 0 < p.2 ∧ DiagOn p.2 p.1 ∧ UnimodOn p.2 p.1) :
    DiagOn (tensors l).2 (tensors l).1 ∧ UnimodOn (tensors l).2 (tensors l).1 := by
  induction l using List.reverseRecOn with
  | nil => exact ⟨one1_diag, one1_unimod⟩
  | append_singleton l p ih =>
    have hp := h p (List.mem_append_right _ (List.mem_singleton_self p))
    have ihl := ih fun q hq => h q (List.mem_append_left _ hq)
    rw [tensors_concat]
    exact ⟨kron_diagOn hp.1 ihl.1 hp.2.1, kron_unimodOn hp.1 ihl.2 hp.2.2⟩

theorem tensors_rowOrtho (l : List (Mat × ℕ))
    (h : ∀ p ∈ l, 0 < p.2 ∧ RowOrtho p.2 p.1) :
    RowOrtho (tensors l).2 (tensors l).1 := by
  induction l using List.reverseRecOn with
  | nil => exact one1_rowOrtho
  | append_singleton l p ih =>
    have hp := h p (List.mem_append_right _ (List.mem_singleton_self p))
    have ihl := ih fun q hq => h q (List.mem_append_left _ hq)
    rw [tensors_concat]
    exact kron_rowOrtho hp.1 ihl hp.2

theorem diag_unimod_rowOrtho {d : ℕ} {M : Mat} (hd : DiagOn d M) (hu : UnimodOn d M) :
    RowOrtho d M := by
  intro i hi k hk
  by_cases h : i = k
  · subst h
    rw [if_pos rfl, Finset.sum_eq_single i]
    · rw [Complex.mul_conj, Complex.normSq_eq_abs, hu _ hi]
      norm_num
    · intro j _ hj
      rw [hd _ hi _ (mem_range.mp ‹j ∈ range d›) (Ne.symm hj), zero_mul]
    · intro hni
      exact absurd (mem_range.mpr hi) hni
  · rw [if_neg h, Finset.sum_eq_zero]
    intro j hj
    by_cases hji : j = i
    · subst hji
      rw [hd _ hk _ hi (Ne.symm h), map_zero, mul_zero]
    · rw [hd _ hi _ (mem_range.mp hj) (Ne.symm hji), zero_mul]

/-! ### Dimensions of the concrete Kronecker products -/

theorem dim_phase (n : ℕ) (f : ℕ → Mat) :
    (tensors ((List.range n).map fun k => (f k, 2))).2 = 2 ^ n := by
  rw [tensors_snd, List.map_map]
  have : (Prod.snd ∘ fun k => ((f k : Mat), 2)) = fun _ => (2 : ℕ) := rfl
  rw [this, List.map_const', List.length_range, List.prod_replicate]

theorem dim_replicate (n : ℕ) (M : Mat) :
    (tensors (List.replicate n (M, 2))).2 = 2 ^ n := by
  rw [tensors_snd, List.map_replicate, List.prod_replicate]

theorem dim_cphase (n parity : ℕ) (b : Bool) (hn : 1 ≤ n) :
    (tensors (cphaseOps n parity b)).2 = 2 ^ n := by
  have h4 : ∀ k : ℕ, (4 : ℕ) ^ k = 2 ^ (2 * k) := by
    intro k
    rw [pow_mul]
    norm_num
  rw [tensors_snd]
  unfold cphaseOps
  by_cases hp : parity = 0
  · rw [if_pos hp]
    rcases Nat.lt_or_ge (2 * (n / 2)) n with hc | hc
    · rw [if_pos hc]
      simp only [List.map_append, List.map_replicate, List.prod_append,
        List.prod_replicate, List.map_cons, List.map_nil, List.prod_cons,
        List.prod_nil, mul_one, h4]
      rw [← pow_succ]
      congr 1
      omega
    · rw [if_neg (not_lt.mpr hc)]
      simp only [List.append_nil, List.map_replicate, List.prod_replicate, h4]
      congr 1
      omega
  · rw [if_neg hp]
    rcases Nat.lt_or_ge (2 * ((n - 1) / 2) + 1) n with hc | hc
    · rw [if_pos hc]
      simp only [List.map_cons, List.map_append, List.map_replicate, List.map_nil,
        List.prod_cons, List.prod_append, List.prod_replicate, List.prod_nil,
        mul_one, h4]
      rw [← pow_succ, ← pow_succ']
      congr 1
      omega
    · rw [if_neg (not_lt.mpr hc)]
      simp only [List.append_nil, List.map_cons, List.map_replicate,
        List.prod_cons, List.prod_replicate, h4]
      rw [← pow_succ']
      congr 1
      omega

/-! ### Properties of the individual gates -/

theorem phaseDiag2_diag (u v : ℝ) : DiagOn 2 (phaseDiag2 u v) := by
  intro i hi j hj hne
  unfold phaseDiag2
  interval_cases i <;> interval_cases j <;> simp_all

theorem phaseDiag2_unimod (u v : ℝ) : UnimodOn 2 (phaseDiag2 u v) := by
  intro i hi
  have habs : ∀ w : ℝ, Complex.abs ⟨Real.cos w, Real.sin w⟩ = 1 := by
    intro w
    rw [Complex.abs_apply, Complex.normSq_mk]
    have : Real.cos w * Real.cos w + Real.sin w * Real.sin w = 1 := by
      have := Real.sin_sq_add_cos_sq w
      nlinarith
    rw [this, Real.sqrt_one]
  unfold phaseDiag2
  interval_cases i <;> simp [habs]

theorem IDENTITY_diag : DiagOn 2 IDENTITY := by
  intro i _ j _ hne
  simp [IDENTITY, hne]

theorem IDENTITY_unimod : UnimodOn 2 IDENTITY := by
  intro i _
  simp [IDENTITY]

theorem CPHASE_diag : DiagOn 4 CPHASE := by
  intro i _ j _ hne
  simp [CPHASE, hne]

theorem CPHASE_unimod : UnimodOn 4 CPHASE := by
  intro i _
  by_cases h : i = 3 <;> simp [CPHASE, h]

theorem CPHASE_MOD_diag : DiagOn 4 CPHASE_MOD := by
  intro i _ j _ hne
  simp [CPHASE_MOD, hne]

theorem CPHASE_MOD_unimod : UnimodOn 4 CPHASE_MOD := by
  intro i _
  by_cases h : i = 3 <;> simp [CPHASE_MOD, h, Complex.abs_I]

theorem gate_diag (b : Bool) : DiagOn 4 (get_cphase_gate b) := by
  unfold get_cphase_gate
  cases b <;> simp [CPHASE_diag, CPHASE_MOD_diag]

theorem gate_unimod (b : Bool) : UnimodOn 4 (get_cphase_gate b) := by
  unfold get_cphase_gate
  cases b <;> simp [CPHASE_unimod, CPHASE_MOD_unimod]

theorem BS_rowOrtho : RowOrtho 2 BS_MATRIX := by
  have hs : (((Real.sqrt 2 : ℝ) : ℂ))⁻¹ * (((Real.sqrt 2 : ℝ) : ℂ))⁻¹ = (2 : ℂ)⁻¹ := by
    rw [← mul_inv, ← Complex.ofReal_mul, Real.mul_self_sqrt (by norm_num : (0:ℝ) ≤ 2)]
    norm_num
  intro i hi k hk
  interval_cases i <;> interval_cases k <;>
    simp only [BS_MATRIX, Finset.sum_range_succ, Finset.sum_range_zero, zero_add, map_mul,
      map_inv₀, Complex.conj_ofReal, Complex.conj_I] <;>
    norm_num <;>
    ring_nf <;>
    simp only [Complex.I_sq] <;>
    ring_nf <;>
    linear_combination (2 : ℂ) * hs

/-! ### Properties of the composed transfer matrices -/

theorem phase_shifts_diag (n : ℕ) (u v : ℕ → ℝ) :
    DiagOn (2 ^ n) (phase_shifts_to_tensor_product_space n u v) := by
  have h := tensors_diag_unimod ((List.range n).map fun k => (phaseDiag2 (u k) (v k), 2))
    (by
      intro p hp
      obtain ⟨k, _, rfl⟩ := List.mem_map.mp hp
      exact ⟨by norm_num, phaseDiag2_diag _ _, phaseDiag2_unimod _ _⟩)
  rw [dim_phase] at h
  exact h.1

theorem phase_shifts_unimod (n : ℕ) (u v : ℕ → ℝ) :
    UnimodOn (2 ^ n) (phase_shifts_to_tensor_product_space n u v) := by
  have h := tensors_diag_unimod ((List.range n).map fun k => (phaseDiag2 (u k) (v k), 2))
    (by
      intro p hp
      obtain ⟨k, _, rfl⟩ := List.mem_map.mp hp
      exact ⟨by norm_num, phaseDiag2_diag _ _, phaseDiag2_unimod _ _⟩)
  rw [dim_phase] at h
  exact h.2

theorem phase_shifts_rowOrtho (n : ℕ) (u v : ℕ → ℝ) :
    RowOrtho (2 ^ n) (phase_shifts_to_tensor_product_space n u v) :=
  diag_unimod_rowOrtho (phase_shifts_diag n u v) (phase_shifts_unimod n u v)

theorem bs_matrix_rowOrtho (n : ℕ) : RowOrtho (2 ^ n) (bs_matrix n) := by
  have h := tensors_rowOrtho (List.replicate n (BS_MATRIX, 2))
    (by
      intro p hp
      rw [List.eq_of_mem_replicate hp]
      exact ⟨by norm_num, BS_rowOrtho⟩)
  rw [dim_replicate] at h
  exact h

theorem cphase_transfer_diag_unimod (n parity : ℕ) (b : Bool) (hn : 1 ≤ n) :
    DiagOn (2 ^ n) (cphase_transfer n parity b)
      ∧ UnimodOn (2 ^ n) (cphase_transfer n parity b) := by
  have h := tensors_diag_unimod (cphaseOps n parity b)
    (by
      intro p hp
      unfold cphaseOps at hp
      by_cases hpar : parity = 0
      · rw [if_pos hpar] at hp
        rcases List.mem_append.mp hp with h1 | h1
        · rw [List.eq_of_mem_replicate h1]
          exact ⟨by norm_num, gate_diag b, gate_unimod b⟩
        · rcases Nat.lt_or_ge (2 * (n / 2)) n with ho | ho
          · rw [if_pos ho] at h1
            rw [List.mem_singleton.mp h1]
            exact ⟨by norm_num, IDENTITY_diag, IDENTITY_unimod⟩
          · rw [if_neg (not_lt.mpr ho)] at h1
            exact absurd h1 (List.not_mem_nil p)
      · rw [if_neg hpar] at hp
        rcases List.mem_cons.mp hp with h1 | h1
        · rw [h1]
          exact ⟨by norm_num, IDENTITY_diag, IDENTITY_unimod⟩
        · rcases List.mem_append.mp h1 with h2 | h2
          · rw [List.eq_of_mem_replicate h2]
            exact ⟨by norm_num, gate_diag b, gate_unimod b⟩
          · rcases Nat.lt_or_ge (2 * ((n - 1) / 2) + 1) n with ho | ho
            · rw [if_pos ho] at h2
              rw [List.mem_singleton.mp h2]
              exact ⟨by norm_num, IDENTITY_diag, IDENTITY_unimod⟩
            · rw [if_neg (not_lt.mpr ho)] at h2
              exact absurd h2 (List.not_mem_nil p))
  rw [show (tensors (cphaseOps n parity b)).2 = 2 ^ n from dim_cphase n parity b hn] at h
  exact h

theorem cphase_transfer_rowOrtho (n parity : ℕ) (b : Bool) (hn : 1 ≤ n) :
    RowOrtho (2 ^ n) (cphase_transfer n parity b) :=
  diag_unimod_rowOrtho (cphase_transfer_diag_unimod n parity b hn).1
    (cphase_transfer_diag_unimod n parity b hn).2

/-! ### Right multiplication: associativity and norm preservation -/

theorem vecMul_assoc (d : ℕ) (x : Vec) (A B : Mat) :
    vecMul d (vecMul d x A) B = vecMul d x (matMul d A B) := by
  funext j
  show ∑ i ∈ range d, (∑ k ∈ range d, x k * A k i) * B i j
      = ∑ k ∈ range d, x k * ∑ i ∈ range d, A k i * B i j
  calc ∑ i ∈ range d, (∑ k ∈ range d, x k * A k i) * B i j
      = ∑ i ∈ range d, ∑ k ∈ range d, x k * A k i * B i j := by
        refine Finset.sum_congr rfl fun i _ => ?_
        rw [Finset.sum_mul]
    _ = ∑ k ∈ range d, ∑ i ∈ range d, x k * A k i * B i j := Finset.sum_comm
    _ = ∑ k ∈ range d, x k * ∑ i ∈ range d, A k i * B i j := by
        refine Finset.sum_congr rfl fun k _ => ?_
        rw [Finset.mul_sum]
        refine Finset.sum_congr rfl fun i _ => ?_
        ring

theorem vecMul_congr (d : ℕ) (x y : Vec) (M : Mat) (h : ∀ i < d, x i = y i) :
    vecMul d x M = vecMul d y M := by
  funext j
  exact Finset.sum_congr rfl fun i hi => by rw [h i (mem_range.mp hi)]

theorem normSqVec_cast (d : ℕ) (y : Vec) :
    ((normSqVec d y : ℝ) : ℂ) = ∑ j ∈ range d, y j * (starRingEnd ℂ) (y j) := by
  unfold normSqVec
  push_cast
  exact Finset.sum_congr rfl fun j _ => (Complex.mul_conj (y j)).symm

theorem vecMul_sum_mul_conj (d : ℕ) (M : Mat) (h : RowOrtho d M) (x : Vec) :
    ∑ j ∈ range d, vecMul d x M j * (starRingEnd ℂ) (vecMul d x M j)
      = ∑ i ∈ range d, x i * (starRingEnd ℂ) (x i) := by
  have expand : ∀ j : ℕ,
      vecMul d x M j * (starRingEnd ℂ) (vecMul d x M j)
        = ∑ i ∈ range d, ∑ k ∈ range d,
            x i * (starRingEnd ℂ) (x k) * (M i j * (starRingEnd ℂ) (M k j)) := by
    intro j
    show (∑ i ∈ range d, x i * M i j) * (starRingEnd ℂ) (∑ k ∈ range d, x k * M k j) = _
    rw [map_sum, Finset.sum_mul_sum]
    refine Finset.sum_congr rfl fun i _ => Finset.sum_congr rfl fun k _ => ?_
    rw [map_mul]
    ring
  calc ∑ j ∈ range d, vecMul d x M j * (starRingEnd ℂ) (vecMul d x M j)
      = ∑ j ∈ range d, ∑ i ∈ range d, ∑ k ∈ range d,
          x i * (starRingEnd ℂ) (x k) * (M i j * (starRingEnd ℂ) (M k j)) :=
        Finset.sum_congr rfl fun j _ => expand j
    _ = ∑ i ∈ range d, ∑ j ∈ range d, ∑ k ∈ range d,
          x i * (starRingEnd ℂ) (x k) * (M i j * (starRingEnd ℂ) (M k j)) :=
        Finset.sum_comm
    _ = ∑ i ∈ range d, ∑ k ∈ range d, ∑ j ∈ range d,
          x i * (starRingEnd ℂ) (x k) * (M i j * (starRingEnd ℂ) (M k j)) :=
        Finset.sum_congr rfl fun i _ => Finset.sum_comm
    _ = ∑ i ∈ range d, ∑ k ∈ range d,
          x i * (starRingEnd ℂ) (x k) * ∑ j ∈ range d, M i j * (starRingEnd ℂ) (M k j) := by
        refine Finset.sum_congr rfl fun i _ => Finset.sum_congr rfl fun k _ => ?_
        rw [Finset.mul_sum]
    _ = ∑ i ∈ range d, ∑ k ∈ range d,
          x i * (starRingEnd ℂ) (x k) * (if i = k then 1 else 0) := by
        refine Finset.sum_congr rfl fun i hi => Finset.sum_congr rfl fun k hk => ?_
        rw [h i (mem_range.mp hi) k (mem_range.mp hk)]
    _ = ∑ i ∈ range d, x i * (starRingEnd ℂ) (x i) := by
        refine Finset.sum_congr rfl fun i hi => ?_
        simp only [mul_ite, mul_one, mul_zero]
        rw [Finset.sum_ite_eq, if_pos hi]

theorem vecMul_normSq (d : ℕ) (M : Mat) (h : RowOrtho d M) (x : Vec) :
    normSqVec d (vecMul d x M) = normSqVec d x := by
  have h1 := vecMul_sum_mul_conj d M h x
  have h2 := (normSqVec_cast d (vecMul d x M)).trans (h1.trans (normSqVec_cast d x).symm)
  exact_mod_cast h2

theorem normSqVec_k_to_tf (d : ℕ) (v : RVec) :
    normSqVec d (k_to_tf_complex v) = normSqR d v := by
  unfold normSqVec normSqR k_to_tf_complex
  refine Finset.sum_congr rfl fun j _ => ?_
  rw [Complex.normSq_mk]
  ring

theorem normSqR_tf_to_k (d : ℕ) (z : Vec) :
    normSqR d (tf_to_k_complex z) = normSqVec d z := by
  unfold normSqVec normSqR tf_to_k_complex
  refine Finset.sum_congr rfl fun j _ => ?_
  rw [Complex.normSq_apply]
  ring

theorem k_to_tf_tf_to_k (z : Vec) : k_to_tf_complex (tf_to_k_complex z) = z := by
  funext j
  rfl

theorem tf_to_k_k_to_tf (v : RVec) : tf_to_k_complex (k_to_tf_complex v) = v := by
  rfl

/-! ### Layer transfer matrices and the circuit as one product -/

/-- The single `d × d` transfer matrix of one `SingleQubitOperationLayer`:
the product of its five constituent matrices in application order. -/
noncomputable def single_qubit_transfer (n : ℕ) (p : SQParams) : Mat :=
  matMul (2 ^ n)
    (matMul (2 ^ n)
      (matMul (2 ^ n)
        (matMul (2 ^ n) (input_shifts n p) (bs_matrix n))
        (theta_shifts n p))
      (bs_matrix n))
    (phi_shifts n p)

theorem singleQubitCall_eq_transfer (n : ℕ) (p : SQParams) (x : Vec) :
    singleQubitCall n p x = vecMul (2 ^ n) x (single_qubit_transfer n p) := by
  unfold singleQubitCall single_qubit_transfer
  simp only [vecMul_assoc]

/-- The ordered list of the `2 · depth + 1` layer transfer matrices of a
circuit: the initial single-qubit transfer, then for each `i < depth` the
entangling transfer of parity `i % 2` followed by the `i`-th single-qubit
transfer. -/
noncomputable def layer_list (n : ℕ) (b : Bool) (p0 : SQParams) (ps : ℕ → SQParams)
    (depth : ℕ) : List Mat :=
  single_qubit_transfer n p0 ::
    List.flatten ((List.range depth).map fun i =>
      [cphase_transfer n (i % 2) b, single_qubit_transfer n (ps i)])

theorem layer_list_zero (n : ℕ) (b : Bool) (p0 : SQParams) (ps : ℕ → SQParams) :
    layer_list n b p0 ps 0 = [single_qubit_transfer n p0] := rfl

theorem layer_list_succ (n : ℕ) (b : Bool) (p0 : SQParams) (ps : ℕ → SQParams) (depth : ℕ) :
    layer_list n b p0 ps (depth + 1)
      = layer_list n b p0 ps depth
          ++ [cphase_transfer n (depth % 2) b, single_qubit_transfer n (ps depth)] := by
  unfold layer_list
  rw [List.range_succ, List.map_append, List.flatten_append]
  simp

theorem layer_list_length (n : ℕ) (b : Bool) (p0 : SQParams) (ps : ℕ → SQParams)
    (depth : ℕ) : (layer_list n b p0 ps depth).length = 2 * depth + 1 := by
  induction depth with
  | zero => rfl
  | succ k ih =>
    rw [layer_list_succ, List.length_append, ih]
    simp
    omega

theorem qpgaCore_zero (n : ℕ) (b : Bool) (p0 : SQParams) (ps : ℕ → SQParams) (x : Vec) :
    qpgaCore n b p0 ps 0 x = singleQubitCall n p0 x := rfl

theorem qpgaCore_succ (n : ℕ) (b : Bool) (p0 : SQParams) (ps : ℕ → SQParams)
    (depth : ℕ) (x : Vec) :
    qpgaCore n b p0 ps (depth + 1) x
      = singleQubitCall n (ps depth)
          (cphaseCall n (depth % 2) b (qpgaCore n b p0 ps depth x)) := by
  unfold qpgaCore
  rw [List.range_succ, List.foldl_append]
  rfl

theorem qpgaCore_eq_foldl (n : ℕ) (b : Bool) (p0 : SQParams) (ps : ℕ → SQParams)
    (depth : ℕ) (x : Vec) :
    qpgaCore n b p0 ps depth x
      = (layer_list n b p0 ps depth).foldl (vecMul (2 ^ n)) x := by
  induction depth with
  | zero =>
    rw [qpgaCore_zero, layer_list_zero, singleQubitCall_eq_transfer]
    rfl
  | succ k ih =>
    rw [qpgaCore_succ, layer_list_succ, List.foldl_append, ← ih,
      singleQubitCall_eq_transfer]
    rfl

/-- Product of a list of `d × d` matrices, left to right, starting from the
identity pattern (which acts as the `d`-dimensional identity on any
in-range index). -/
noncomputable def matProd (d : ℕ) (l : List Mat) : Mat :=
  l.foldl (matMul d) IDENTITY

theorem matProd_concat (d : ℕ) (l : List Mat) (M : Mat) :
    matProd d (l ++ [M]) = matMul d (matProd d l) M := by
  unfold matProd
  rw [List.foldl_append]
  rfl

theorem vecMul_IDENTITY (d : ℕ) (x : Vec) : ∀ j < d, vecMul d x IDENTITY j = x j := by
  intro j hj
  unfold vecMul IDENTITY
  simp only [mul_ite, mul_one, mul_zero]
  rw [Finset.sum_ite_eq', if_pos (mem_range.mpr hj)]

theorem vecMul_matProd (d : ℕ) (l : List Mat) (x : Vec) :
    ∀ j < d, vecMul d x (matProd d l) j = (l.foldl (vecMul d) x) j := by
  induction l using List.reverseRecOn with
  | nil => exact vecMul_IDENTITY d x
  | append_singleton l M ih =>
    intro j hj
    have step : List.foldl (vecMul d) x (l ++ [M]) = vecMul d (l.foldl (vecMul d) x) M := by
      rw [List.foldl_append]
      rfl
    rw [matProd_concat, step, ← vecMul_assoc,
      vecMul_congr d (vecMul d x (matProd d l)) (l.foldl (vecMul d) x) M ih]

/-! ### Concrete instances used by witnesses -/

/-- The all-zero parameter record. -/
def pZero : SQParams := ⟨zerosLike, zerosLike, zerosLike, zerosLike⟩

/-- Parameters with every `alpha` equal to `π` and all other phases zero. -/
noncomputable def pPi : SQParams := ⟨fun _ => Real.pi, zerosLike, zerosLike, zerosLike⟩

/-- The computational basis state `|0⟩`. -/
def e0 : Vec := fun j => if j = 0 then 1 else 0

/-- The real paired encoding of the `i`-th computational basis state. -/
def basisR (i : ℕ) : RVec := (fun j => if j = i then 1 else 0, fun _ => 0)

/-- A single-qubit layer object: its qubit count and the current values of
its four trainable parameter vectors (the mutable state the external
optimizer updates between forward passes). -/
structure SingleQubitOperationLayer where
  num_qubits : ℕ
  params : SQParams

/-- Mutation of the layer's trainable parameters by the external optimizer. -/
def SingleQubitOperationLayer.set_params (l : SingleQubitOperationLayer)
    (p : SQParams) : SingleQubitOperationLayer :=
  { l with params := p }

/-- Forward pass of the layer object on its current parameters. -/
noncomputable def SingleQubitOperationLayer.forward (l : SingleQubitOperationLayer)
    (x : Vec) : Vec :=
  singleQubitCall l.num_qubits l.params x

/-! ### Claims -/

/-- C4: for every `n ≥ 1` (indeed every `n`) and arbitrary real phase
vectors `u, v`, the Phase-Diagonal Builder returns a matrix that is exactly
diagonal on its `2^n × 2^n` range and whose every diagonal entry has
modulus 1; being a total function of arbitrary real inputs, it has no
failure mode. -/
theorem C4_phase_diagonal_builder (n : ℕ) (u v : ℕ → ℝ) :
    (∀ i < 2 ^ n, ∀ j < 2 ^ n, i ≠ j →
        phase_shifts_to_tensor_product_space n u v i j = 0)
      ∧ (∀ i < 2 ^ n,
          Complex.abs (phase_shifts_to_tensor_product_space n u v i i) = 1) :=
  ⟨phase_shifts_diag n u v, phase_shifts_unimod n u v⟩

/-- C4 witness: the builder on one qubit with zero phases, at the
off-diagonal entry `(0, 1)` and the diagonal entry `(0, 0)`. -/
theorem C4_phase_diagonal_builder_witness :
    phase_shifts_to_tensor_product_space 1 zerosLike zerosLike 0 1 = 0
      ∧ Complex.abs (phase_shifts_to_tensor_product_space 1 zerosLike zerosLike 0 0) = 1 :=
  ⟨(C4_phase_diagonal_builder 1 zerosLike zerosLike).1 0 (by norm_num) 1 (by norm_num)
      (by norm_num),
    (C4_phase_diagonal_builder 1 zerosLike zerosLike).2 0 (by norm_num)⟩

/-- C2: the single-qubit layer's forward pass right-multiplies the batch
row by exactly the five matrices, in order: the phase diagonal built from
`(alphas, betas)`, the beam-splitter Kronecker power, the phase diagonal
built from `(thetas, 0)`, the beam-splitter Kronecker power again, and the
phase diagonal built from `(phis, 0)`; equivalently, by their single
five-matrix product. -/
theorem C2_single_qubit_five_matrices (n : ℕ) (p : SQParams) (x : Vec) :
    singleQubitCall n p x
        = vecMul (2 ^ n)
            (vecMul (2 ^ n)
              (vecMul (2 ^ n)
                (vecMul (2 ^ n)
                  (vecMul (2 ^ n) x (phase_shifts_to_tensor_product_space n p.alphas p.betas))
                  (bs_matrix n))
                (phase_shifts_to_tensor_product_space n p.thetas zerosLike))
              (bs_matrix n))
            (phase_shifts_to_tensor_product_space n p.phis zerosLike)
      ∧ singleQubitCall n p x = vecMul (2 ^ n) x (single_qubit_transfer n p) :=
  ⟨rfl, singleQubitCall_eq_transfer n p x⟩

/-- C3: the entangling layer's block list is, at parity 0, `⌊n/2⌋`
controlled-phase gates followed by one trailing identity exactly when `n`
is odd, and at parity 1 a leading identity, `⌊(n-1)/2⌋` gates and a
trailing identity exactly when `n` is even; for `n = 3` the fixed transfer
matrix equals `kron(CPHASE, IDENTITY)` at parity 0 and
`kron(IDENTITY, CPHASE)` at parity 1, with the gate selected by the
`use_standard_cphase` flag. -/
theorem C3_cphase_blocks (n : ℕ) (hn : 1 ≤ n) (b : Bool) :
    (cphaseOps n 0 b
        = List.replicate (n / 2) (get_cphase_gate b, 4)
            ++ (if n % 2 = 1 then [(IDENTITY, 2)] else []))
      ∧ (cphaseOps n 1 b
          = (IDENTITY, 2) ::
              (List.replicate ((n - 1) / 2) (get_cphase_gate b, 4)
                ++ (if n % 2 = 0 then [(IDENTITY, 2)] else [])))
      ∧ (∀ i < 8, ∀ j < 8,
          cphase_transfer 3 0 b i j = kron 2 (get_cphase_gate b) IDENTITY i j)
      ∧ (∀ i < 8, ∀ j < 8,
          cphase_transfer 3 1 b i j = kron 4 IDENTITY (get_cphase_gate b) i j) := by
  refine ⟨?_, ?_, ?_, ?_⟩
  · unfold cphaseOps
    rw [if_pos rfl]
    congr 1
    exact if_congr (by omega) rfl rfl
  · unfold cphaseOps
    rw [if_neg one_ne_zero]
    congr 2
    exact if_congr (by omega) rfl rfl
  · intro i hi j hj
    show one1 (i / 2 / 4) (j / 2 / 4) * get_cphase_gate b (i / 2 % 4) (j / 2 % 4)
        * IDENTITY (i % 2) (j % 2)
      = get_cphase_gate b (i / 2) (j / 2) * IDENTITY (i % 2) (j % 2)
    have e1 : i / 2 / 4 = 0 := by omega
    have e2 : j / 2 / 4 = 0 := by omega
    have e3 : i / 2 % 4 = i / 2 := by omega
    have e4 : j / 2 % 4 = j / 2 := by omega
    rw [e1, e2, e3, e4]
    simp [one1]
  · intro i hi j hj
    show one1 (i / 4 / 2) (j / 4 / 2) * IDENTITY (i / 4 % 2) (j / 4 % 2)
        * get_cphase_gate b (i % 4) (j % 4)
      = IDENTITY (i / 4) (j / 4) * get_cphase_gate b (i % 4) (j % 4)
    have e1 : i / 4 / 2 = 0 := by omega
    have e2 : j / 4 / 2 = 0 := by omega
    have e3 : i / 4 % 2 = i / 4 := by omega
    have e4 : j / 4 % 2 = j / 4 := by omega
    rw [e1, e2, e3, e4]
    simp [one1]

/-- C3 witness: the parity-0 block list of the three-qubit layer with the
standard gate. -/
theorem C3_cphase_blocks_witness :
    cphaseOps 3 0 true
      = List.replicate (3 / 2) (get_cphase_gate true, 4)
          ++ (if 3 % 2 = 1 then [(IDENTITY, 2)] else []) :=
  (C3_cphase_blocks 3 (by norm_num) true).1

/-- C10: for one qubit (either parity) and for two qubits at parity 1, the
entangling layer's block list contains no controlled-phase gate (only
identities), its transfer matrix is the identity on the `2^n` range, and
its forward pass returns the input state unchanged on every in-range
amplitude. -/
theorem C10_trivial_entangling (b : Bool) :
    (cphaseOps 1 0 b = [(IDENTITY, 2)])
      ∧ (cphaseOps 1 1 b = [(IDENTITY, 2)])
      ∧ (cphaseOps 2 1 b = [(IDENTITY, 2), (IDENTITY, 2)])
      ∧ (∀ i < 2, ∀ j < 2, cphase_transfer 1 0 b i j = if i = j then 1 else 0)
      ∧ (∀ i < 2, ∀ j < 2, cphase_transfer 1 1 b i j = if i = j then 1 else 0)
      ∧ (∀ i < 4, ∀ j < 4, cphase_transfer 2 1 b i j = if i = j then 1 else 0)
      ∧ (∀ x : Vec, ∀ j < 2, cphaseCall 1 0 b x j = x j)
      ∧ (∀ x : Vec, ∀ j < 2, cphaseCall 1 1 b x j = x j)
      ∧ (∀ x : Vec, ∀ j < 4, cphaseCall 2 1 b x j = x j) := by
  have t10 : ∀ i < 2, ∀ j < 2, cphase_transfer 1 0 b i j = if i = j then 1 else 0 := by
    intro i hi j hj
    show one1 (i / 2) (j / 2) * IDENTITY (i % 2) (j % 2) = if i = j then 1 else 0
    have e1 : i / 2 = 0 := by omega
    have e2 : j / 2 = 0 := by omega
    have e3 : i % 2 = i := by omega
    have e4 : j % 2 = j := by omega
    rw [e1, e2, e3, e4]
    simp [one1, IDENTITY]
  have t11 : ∀ i < 2, ∀ j < 2, cphase_transfer 1 1 b i j = if i = j then 1 else 0 := by
    intro i hi j hj
    show one1 (i / 2) (j / 2) * IDENTITY (i % 2) (j % 2) = if i = j then 1 else 0
    have e1 : i / 2 = 0 := by omega
    have e2 : j / 2 = 0 := by omega
    have e3 : i % 2 = i := by omega
    have e4 : j % 2 = j := by omega
    rw [e1, e2, e3, e4]
    simp [one1, IDENTITY]
  have t21 : ∀ i < 4, ∀ j < 4, cphase_transfer 2 1 b i j = if i = j then 1 else 0 := by
    intro i hi j hj
    show one1 (i / 2 / 2) (j / 2 / 2) * IDENTITY (i / 2 % 2) (j / 2 % 2)
        * IDENTITY (i % 2) (j % 2) = if i = j then 1 else 0
    have e1 : i / 2 / 2 = 0 := by omega
    have e2 : j / 2 / 2 = 0 := by omega
    have e3 : i / 2 % 2 = i / 2 := by omega
    have e4 : j / 2 % 2 = j / 2 := by omega
    rw [e1, e2, e3, e4]
    interval_cases i <;> interval_cases j <;> simp [one1, IDENTITY]
  have call_of : ∀ (d n parity : ℕ), 2 ^ n = d →
      (∀ i < d, ∀ j < d, cphase_transfer n parity b i j = if i = j then 1 else 0) →
      ∀ x : Vec, ∀ j < d, cphaseCall n parity b x j = x j := by
    intro d n parity hd ht x j hj
    unfold cphaseCall vecMul
    rw [hd]
    rw [Finset.sum_congr rfl fun i hi => by
      rw [ht i (mem_range.mp hi) j hj]]
    simp only [mul_ite, mul_one, mul_zero]
    rw [Finset.sum_ite_eq', if_pos (mem_range.mpr hj)]
  exact ⟨rfl, rfl, rfl, t10, t11, t21,
    call_of 2 1 0 rfl t10, call_of 2 1 1 rfl t11, call_of 4 2 1 rfl t21⟩

/-- C10 witness: the one-qubit parity-0 transfer at entry `(0, 0)` and the
forward pass on `|0⟩` at amplitude 0, with the standard gate. -/
theorem C10_trivial_entangling_witness :
    cphase_transfer 1 0 true 0 0 = (if (0 : ℕ) = 0 then 1 else 0)
      ∧ cphaseCall 1 0 true e0 0 = e0 0 :=
  ⟨(C10_trivial_entangling true).2.2.2.1 0 (by norm_num) 0 (by norm_num),
    (C10_trivial_entangling true).2.2.2.2.2.2.1 e0 0 (by norm_num)⟩

/-- C6 counterexample: the constructor accepts `num_qubits = 0` together
with `depth = -1` and returns an instance; nothing is rejected at
construction time. -/
theorem C6_no_rejection_counterexample :
    (QPGA_init 0 (-1) false false true pZero).isSome = true := rfl

/-- C6 amended: the constructor performs no validation at all — for every
integer `num_qubits` and `depth` (and any flags) it returns an instance,
and a negative depth simply yields empty layer lists, `depth.toNat`
entangling parities and single-qubit layers. -/
theorem C6_no_rejection_amended (num_qubits depth : ℤ)
    (ci co std : Bool) (p0 : SQParams) :
    ∃ r : RawQPGA, QPGA_init num_qubits depth ci co std p0 = some r
      ∧ r.cphase_parities.length = depth.toNat
      ∧ r.num_single_qubit_layers = depth.toNat :=
  ⟨_, rfl, by rw [List.length_map, List.length_range], rfl⟩

/-- C9: the antifidelity of one batch row is one minus the squared modulus
of the inner product `Σ conj(true)·pred` of the bridged states; on a
normalized state against itself it is 0, on two distinct in-range basis
states it is 1, and on normalized inputs it always lies in `[0, 1]`. -/
theorem C9_antifidelity_properties (d : ℕ) (t p : RVec) (i j : ℕ) :
    (antifidelity d t p
        = 1 - Complex.abs (∑ a ∈ range d,
            (starRingEnd ℂ) (k_to_tf_complex t a) * k_to_tf_complex p a) ^ 2)
      ∧ (normSqR d t = 1 → antifidelity d t t = 0)
      ∧ (i < d → j < d → i ≠ j → antifidelity d (basisR i) (basisR j) = 1)
      ∧ (normSqR d t = 1 → normSqR d p = 1 →
          0 ≤ antifidelity d t p ∧ antifidelity d t p ≤ 1) := by
  refine ⟨rfl, ?_, ?_, ?_⟩
  · intro ht
    unfold antifidelity
    have hsum : ∑ a ∈ range d, (starRingEnd ℂ) (k_to_tf_complex t a) * k_to_tf_complex t a
        = ((normSqR d t : ℝ) : ℂ) := by
      calc ∑ a ∈ range d, (starRingEnd ℂ) (k_to_tf_complex t a) * k_to_tf_complex t a
          = ∑ a ∈ range d, k_to_tf_complex t a * (starRingEnd ℂ) (k_to_tf_complex t a) :=
            Finset.sum_congr rfl fun a _ => mul_comm _ _
        _ = ((normSqVec d (k_to_tf_complex t) : ℝ) : ℂ) := (normSqVec_cast d _).symm
        _ = ((normSqR d t : ℝ) : ℂ) := by rw [normSqVec_k_to_tf]
    rw [hsum, ht]
    simp
  · intro hi hj hne
    unfold antifidelity
    have hz : ∑ a ∈ range d,
        (starRingEnd ℂ) (k_to_tf_complex (basisR i) a) * k_to_tf_complex (basisR j) a = 0 := by
      apply Finset.sum_eq_zero
      intro a _
      have h0 : (⟨(0 : ℝ), (0 : ℝ)⟩ : ℂ) = 0 := rfl
      by_cases hai : a = i
      · have haj : a ≠ j := by rw [hai]; exact hne
        show (starRingEnd ℂ) ⟨if a = i then 1 else 0, 0⟩
            * (⟨if a = j then 1 else 0, 0⟩ : ℂ) = 0
        rw [if_neg haj, h0, mul_zero]
      · show (starRingEnd ℂ) ⟨if a = i then 1 else 0, 0⟩
            * (⟨if a = j then 1 else 0, 0⟩ : ℂ) = 0
        rw [if_neg hai, h0, map_zero, zero_mul]
    rw [hz]
    simp
  · intro ht hp
    constructor
    · unfold antifidelity
      rw [sub_nonneg]
      have habs : Complex.abs (∑ a ∈ range d,
            (starRingEnd ℂ) (k_to_tf_complex t a) * k_to_tf_complex p a)
          ≤ ∑ a ∈ range d,
              Complex.abs (k_to_tf_complex t a) * Complex.abs (k_to_tf_complex p a) := by
        refine le_trans (Complex.abs.sum_le _ _) (le_of_eq ?_)
        refine Finset.sum_congr rfl fun a _ => ?_
        rw [map_mul, Complex.abs_conj]
      have hsq : ∀ w : RVec,
          ∑ a ∈ range d, Complex.abs (k_to_tf_complex w a) ^ 2 = normSqR d w := by
        intro w
        rw [← normSqVec_k_to_tf d w]
        exact Finset.sum_congr rfl fun a _ => Complex.sq_abs _
      have hcs := Finset.sum_mul_sq_le_sq_mul_sq (range d)
        (fun a => Complex.abs (k_to_tf_complex t a))
        (fun a => Complex.abs (k_to_tf_complex p a))
      rw [hsq t, hsq p, ht, hp, mul_one] at hcs
      have h1 := pow_le_pow_left₀ (Complex.abs.nonneg _) habs 2
      calc Complex.abs (∑ a ∈ range d,
            (starRingEnd ℂ) (k_to_tf_complex t a) * k_to_tf_complex p a) ^ 2
          ≤ (∑ a ∈ range d,
              Complex.abs (k_to_tf_complex t a) * Complex.abs (k_to_tf_complex p a)) ^ 2 := h1
        _ ≤ 1 := hcs
    · exact sub_le_self 1 (sq_nonneg _)

/-- C9 witness: on two qubits' worth of amplitudes, the antifidelity of
`|0⟩` against itself is 0, against `|1⟩` is 1, and lies in `[0, 1]`. -/
theorem C9_antifidelity_properties_witness :
    antifidelity 2 (basisR 0) (basisR 0) = 0
      ∧ antifidelity 2 (basisR 0) (basisR 1) = 1
      ∧ (0 ≤ antifidelity 2 (basisR 0) (basisR 0)
          ∧ antifidelity 2 (basisR 0) (basisR 0) ≤ 1) := by
  have hb : normSqR 2 (basisR 0) = 1 := by
    norm_num [normSqR, basisR, Finset.sum_range_succ]
  exact ⟨(C9_antifidelity_properties 2 (basisR 0) (basisR 0) 0 1).2.1 hb,
    (C9_antifidelity_properties 2 (basisR 0) (basisR 1) 0 1).2.2.1 (by norm_num) (by norm_num)
      (by norm_num),
    (C9_antifidelity_properties 2 (basisR 0) (basisR 0) 0 1).2.2.2 hb hb⟩

/-! ### The full forward pass -/

/-- The complex state entering the core: the input itself when complex, its
bridged form otherwise. -/
def decodeIn : MVal → Vec
  | MVal.c v => v
  | MVal.r v => k_to_tf_complex v

theorem applySeq_append (l1 l2 : List (MVal → MVal)) (x : MVal) :
    applySeq (l1 ++ l2) x = applySeq l2 (applySeq l1 x) := by
  unfold applySeq
  rw [List.foldl_append]

theorem applySeq_pairs (n : ℕ) (b : Bool) (ps : ℕ → SQParams) (depth : ℕ) (v : Vec) :
    applySeq (List.flatten ((List.range depth).map fun i =>
        [cStage (cphaseCall n (i % 2) b), cStage (singleQubitCall n (ps i))])) (MVal.c v)
      = MVal.c ((List.range depth).foldl
          (fun acc i => singleQubitCall n (ps i) (cphaseCall n (i % 2) b acc)) v) := by
  induction depth with
  | zero => rfl
  | succ k ih =>
    rw [List.range_succ, List.map_append, List.flatten_append, applySeq_append, ih,
      List.foldl_append]
    rfl

theorem call_cases (m : Model) (x : MVal) (hx : Shaped m.complex_inputs x) :
    m.call x
      = if m.complex_outputs
          then MVal.c (qpgaCore m.num_qubits m.use_standard_cphase m.input_layer
            m.layer_params m.depth (decodeIn x))
          else MVal.r (tf_to_k_complex (qpgaCore m.num_qubits m.use_standard_cphase
            m.input_layer m.layer_params m.depth (decodeIn x))) := by
  cases x with
  | c v =>
    cases hci : m.complex_inputs
    · rw [hci] at hx
      simp [Shaped] at hx
    · simp [Model.call, decodeIn, hci]
  | r v =>
    cases hci : m.complex_inputs
    · simp [Model.call, decodeIn, hci]
    · rw [hci] at hx
      simp [Shaped] at hx

/-- C1: for every circuit and well-shaped input, the forward pass applies
the initial single-qubit layer and then, for `i` in `0..depth-1`, the
entangling layer of parity `i % 2` followed by a single-qubit layer: the
list of layer transfer matrices has length `2·depth + 1`, the core output
equals the input right-multiplied by their single matrix product, the input
is bridged from the real paired encoding exactly when `complex_inputs` is
false and the output bridged back exactly when `complex_outputs` is false,
and at `depth = 0` the call applies exactly the one initial single-qubit
layer. -/
theorem C1_forward_layer_product (m : Model) (x : MVal) (hx : Shaped m.complex_inputs x) :
    ((layer_list m.num_qubits m.use_standard_cphase m.input_layer m.layer_params
        m.depth).length = 2 * m.depth + 1)
      ∧ (∀ j < 2 ^ m.num_qubits,
          qpgaCore m.num_qubits m.use_standard_cphase m.input_layer m.layer_params m.depth
              (decodeIn x) j
            = vecMul (2 ^ m.num_qubits) (decodeIn x)
                (matProd (2 ^ m.num_qubits)
                  (layer_list m.num_qubits m.use_standard_cphase m.input_layer
                    m.layer_params m.depth)) j)
      ∧ (m.call x
          = if m.complex_outputs
              then MVal.c (qpgaCore m.num_qubits m.use_standard_cphase m.input_layer
                m.layer_params m.depth (decodeIn x))
              else MVal.r (tf_to_k_complex (qpgaCore m.num_qubits m.use_standard_cphase
                m.input_layer m.layer_params m.depth (decodeIn x))))
      ∧ (m.depth = 0 →
          m.call x
            = if m.complex_outputs
                then MVal.c (singleQubitCall m.num_qubits m.input_layer (decodeIn x))
                else MVal.r (tf_to_k_complex
                  (singleQubitCall m.num_qubits m.input_layer (decodeIn x)))) := by
  refine ⟨layer_list_length _ _ _ _ _, ?_, call_cases m x hx, ?_⟩
  · intro j hj
    rw [qpgaCore_eq_foldl]
    exact (vecMul_matProd _ _ _ j hj).symm
  · intro hd
    rw [call_cases m x hx]
    simp only [hd, qpgaCore_zero]

/-- C1 witness: the depth-0 one-qubit circuit on the complex input `|0⟩`
applies exactly the initial single-qubit layer. -/
theorem C1_forward_layer_product_witness :
    Model.call ⟨1, 0, true, true, true, pZero, fun _ => pZero⟩ (MVal.c e0)
      = if true
          then MVal.c (singleQubitCall 1 pZero (decodeIn (MVal.c e0)))
          else MVal.r (tf_to_k_complex (singleQubitCall 1 pZero (decodeIn (MVal.c e0)))) :=
  (C1_forward_layer_product ⟨1, 0, true, true, true, pZero, fun _ => pZero⟩
    (MVal.c e0) trivial).2.2.2 rfl

/-- C7: on every well-shaped input, the flat sequential pipeline built by
`as_sequential` computes exactly the same output as the model's own forward
pass. -/
theorem C7_sequential_equivalence (m : Model) (x : MVal) (hx : Shaped m.complex_inputs x) :
    applySeq (as_sequential m) x = m.call x := by
  have key : ∀ v : Vec,
      applySeq ([cStage (singleQubitCall m.num_qubits m.input_layer)]
          ++ List.flatten ((List.range m.depth).map fun i =>
              [cStage (cphaseCall m.num_qubits (i % 2) m.use_standard_cphase),
               cStage (singleQubitCall m.num_qubits (m.layer_params i))])
          ++ (if m.complex_outputs then [] else [outStage])) (MVal.c v)
        = if m.complex_outputs
            then MVal.c (qpgaCore m.num_qubits m.use_standard_cphase m.input_layer
              m.layer_params m.depth v)
            else MVal.r (tf_to_k_complex (qpgaCore m.num_qubits m.use_standard_cphase
              m.input_layer m.layer_params m.depth v)) := by
    intro v
    rw [applySeq_append, applySeq_append]
    have h1 : applySeq [cStage (singleQubitCall m.num_qubits m.input_layer)] (MVal.c v)
        = MVal.c (singleQubitCall m.num_qubits m.input_layer v) := rfl
    rw [h1, applySeq_pairs]
    cases hco : m.complex_outputs
    · rfl
    · rfl
  cases x with
  | c v =>
    cases hci : m.complex_inputs
    · rw [hci] at hx
      simp [Shaped] at hx
    · rw [call_cases m _ hx]
      unfold as_sequential
      rw [hci, if_pos rfl, List.nil_append, key v]
      rfl
  | r v =>
    cases hci : m.complex_inputs
    · rw [call_cases m _ hx]
      unfold as_sequential
      rw [hci, if_neg (by simp)]
      have h3 : ∀ A B C D : List (MVal → MVal),
          ((A ++ B) ++ C) ++ D = A ++ ((B ++ C) ++ D) := by
        intro A B C D
        simp [List.append_assoc]
      rw [h3, applySeq_append]
      have h2 : applySeq [inStage] (MVal.r v) = MVal.c (k_to_tf_complex v) := rfl
      rw [h2, key (k_to_tf_complex v)]
      rfl
    · rw [hci] at hx
      simp [Shaped] at hx

/-- C7 witness: a depth-1 one-qubit circuit with real paired input and
output encodings agrees with its sequential view on the encoded `|0⟩`. -/
theorem C7_sequential_equivalence_witness :
    applySeq (as_sequential ⟨1, 1, false, false, true, pZero, fun _ => pZero⟩)
        (MVal.r (basisR 0))
      = Model.call ⟨1, 1, false, false, true, pZero, fun _ => pZero⟩ (MVal.r (basisR 0)) :=
  C7_sequential_equivalence ⟨1, 1, false, false, true, pZero, fun _ => pZero⟩
    (MVal.r (basisR 0)) trivial

/-! ### Norm preservation -/

theorem singleQubitCall_normSq (n : ℕ) (p : SQParams) (x : Vec) :
    normSqVec (2 ^ n) (singleQubitCall n p x) = normSqVec (2 ^ n) x := by
  unfold singleQubitCall phi_shifts theta_shifts input_shifts
  rw [vecMul_normSq _ _ (phase_shifts_rowOrtho n p.phis zerosLike),
    vecMul_normSq _ _ (bs_matrix_rowOrtho n),
    vecMul_normSq _ _ (phase_shifts_rowOrtho n p.thetas zerosLike),
    vecMul_normSq _ _ (bs_matrix_rowOrtho n),
    vecMul_normSq _ _ (phase_shifts_rowOrtho n p.alphas p.betas)]

theorem cphaseCall_normSq (n parity : ℕ) (b : Bool) (hn : 1 ≤ n) (x : Vec) :
    normSqVec (2 ^ n) (cphaseCall n parity b x) = normSqVec (2 ^ n) x := by
  unfold cphaseCall
  rw [vecMul_normSq _ _ (cphase_transfer_rowOrtho n parity b hn)]

theorem qpgaCore_normSq (n : ℕ) (b : Bool) (p0 : SQParams) (ps : ℕ → SQParams)
    (depth : ℕ) (hn : 1 ≤ n) (x : Vec) :
    normSqVec (2 ^ n) (qpgaCore n b p0 ps depth x) = normSqVec (2 ^ n) x := by
  induction depth with
  | zero => rw [qpgaCore_zero, singleQubitCall_normSq]
  | succ k ih => rw [qpgaCore_succ, singleQubitCall_normSq, cphaseCall_normSq _ _ _ hn, ih]

/-- C8: for every circuit on at least one qubit, any depth, any parameter
values and any well-shaped input of squared norm 1 (in either encoding),
the output of the forward pass also has squared norm 1: every composed
layer transfer matrix is unitary and the encoding bridges preserve the
norm. -/
theorem C8_norm_preservation (m : Model) (hn : 1 ≤ m.num_qubits) (x : MVal)
    (hx : Shaped m.complex_inputs x)
    (hnorm : MVal.normSq (2 ^ m.num_qubits) x = 1) :
    MVal.normSq (2 ^ m.num_qubits) (m.call x) = 1 := by
  have hdec : normSqVec (2 ^ m.num_qubits) (decodeIn x) = 1 := by
    cases x with
    | c v => exact hnorm
    | r v =>
      show normSqVec (2 ^ m.num_qubits) (k_to_tf_complex v) = 1
      rw [normSqVec_k_to_tf]
      exact hnorm
  rw [call_cases m x hx]
  cases hco : m.complex_outputs
  · rw [if_neg (by simp)]
    show normSqR (2 ^ m.num_qubits) (tf_to_k_complex _) = 1
    rw [normSqR_tf_to_k, qpgaCore_normSq _ _ _ _ _ hn, hdec]
  · rw [if_pos rfl]
    show normSqVec (2 ^ m.num_qubits) _ = 1
    rw [qpgaCore_normSq _ _ _ _ _ hn, hdec]

/-- C8 witness: the depth-0 one-qubit circuit preserves the unit norm of
the complex input `|0⟩`. -/
theorem C8_norm_preservation_witness :
    1 ≤ (1 : ℕ)
      ∧ MVal.normSq (2 ^ 1) (MVal.c e0) = 1
      ∧ MVal.normSq (2 ^ 1)
          (Model.call ⟨1, 0, true, true, true, pZero, fun _ => pZero⟩ (MVal.c e0)) = 1 := by
  have h1 : MVal.normSq (2 ^ 1) (MVal.c e0) = 1 := by
    show normSqVec (2 ^ 1) e0 = 1
    norm_num [normSqVec, e0, Finset.sum_range_succ]
  exact ⟨le_refl 1, h1,
    C8_norm_preservation ⟨1, 0, true, true, true, pZero, fun _ => pZero⟩ (le_refl 1)
      (MVal.c e0) trivial h1⟩

/-! ### Parameter mutation between forward passes -/

theorem sq1_eval (α : ℝ) (p : SQParams) (ha : p.alphas 0 = α) (hb : p.betas 0 = 0)
    (ht : p.thetas 0 = 0) (hp : p.phis 0 = 0) :
    singleQubitCall 1 p e0 1 = ⟨Real.cos α, Real.sin α⟩ * Complex.I := by
  have hs : (((Real.sqrt 2 : ℝ) : ℂ))⁻¹ * (((Real.sqrt 2 : ℝ) : ℂ))⁻¹ = (2 : ℂ)⁻¹ := by
    rw [← mul_inv, ← Complex.ofReal_mul, Real.mul_self_sqrt (by norm_num : (0:ℝ) ≤ 2)]
    norm_num
  have c1 : (⟨(1 : ℝ), (0 : ℝ)⟩ : ℂ) = 1 := rfl
  have c0 : (⟨(0 : ℝ), (0 : ℝ)⟩ : ℂ) = 0 := rfl
  have eIS : input_shifts 1 p = kron 2 one1 (phaseDiag2 (p.alphas 0) (p.betas 0)) := rfl
  have eTS : theta_shifts 1 p = kron 2 one1 (phaseDiag2 (p.thetas 0) 0) := rfl
  have ePS : phi_shifts 1 p = kron 2 one1 (phaseDiag2 (p.phis 0) 0) := rfl
  have eBS : bs_matrix 1 = kron 2 one1 BS_MATRIX := rfl
  simp only [singleQubitCall, pow_one, vecMul, Finset.sum_range_succ, Finset.sum_range_zero,
    zero_add, eIS, eTS, ePS, eBS, ha, hb, ht, hp]
  norm_num [kron, one1, phaseDiag2, BS_MATRIX, e0, Real.cos_zero, Real.sin_zero, c1, c0]
  ring_nf
  linear_combination (2 * (⟨Real.cos α, Real.sin α⟩ : ℂ) * Complex.I) * hs

/-- C5: the single-qubit layer's phase-diagonal transfer matrices are
derived from the current values of the phase parameter vectors at each
forward pass: after the external optimizer mutates the parameters, the next
forward pass right-multiplies by the transfer product built from the
updated values; at a concrete instance the mutated layer's output differs
from the output its construction-time parameters produce, so no
construction-time matrix caching is observable. -/
theorem C5_forward_uses_current_params (l : SingleQubitOperationLayer) (p' : SQParams)
    (x : Vec) :
    (l.set_params p').forward x
        = vecMul (2 ^ l.num_qubits) x (single_qubit_transfer l.num_qubits p')
      ∧ ((SingleQubitOperationLayer.mk 1 pZero).set_params pPi).forward e0 1
          ≠ (SingleQubitOperationLayer.mk 1 pZero).forward e0 1 := by
  constructor
  · exact singleQubitCall_eq_transfer l.num_qubits p' x
  · have h1 : ((SingleQubitOperationLayer.mk 1 pZero).set_params pPi).forward e0 1
        = ⟨Real.cos Real.pi, Real.sin Real.pi⟩ * Complex.I :=
      sq1_eval Real.pi pPi rfl rfl rfl rfl
    have h2 : (SingleQubitOperationLayer.mk 1 pZero).forward e0 1
        = ⟨Real.cos 0, Real.sin 0⟩ * Complex.I :=
      sq1_eval 0 pZero rfl rfl rfl rfl
    rw [h1, h2, Real.cos_pi, Real.sin_pi, Real.cos_zero, Real.sin_zero]
    intro h
    have h' := congrArg Complex.im h
    simp [Complex.mul_im, Complex.I_re, Complex.I_im] at h'
    norm_num at h'

end QPGA
